import Mathlib

/-!
Verification of the `uniquer` duplicate-file consolidator (`src/main.rs`).

The program normalizes filenames by stripping an enumeration suffix
(regex `^(?P<base>.+?)\s*\(\d+\)(?P<ext>\.\w+)?$`), walks a directory tree
skipping hidden entries, groups entries by the normalized basename, keeps
groups of size at least 2, sorts each group by (created, modified), then
deletes all but the last file of each group and renames the survivor to
the normalization of its full path.

Strings are modelled as `List Char`.  The character classes `\s`, `\d`,
`\w` are modelled by their ASCII fragments (`Char.isWhitespace`,
`Char.isDigit`, alphanumeric-or-underscore); the Rust regex crate uses the
Unicode classes, which agree on ASCII input.  `.` in the regex matches any
character except a newline, which the model reflects.
-/

namespace Uniquer

/-- ASCII fragment of the regex class `\w`: letters, digits, underscore. -/
def isWordChar (c : Char) : Bool := c.isAlphanum || c = '_'

/-- Matcher for the anchored tail `\s*\(\d+\)(\.\w+)?$` of the regex in
`normalize_file` (src/main.rs line 26).  Returns the text of the `ext`
capture (`[]` when the optional extension group does not participate),
or `none` when the remainder `r` does not match. -/
def enumSuffix? (r : List Char) : Option (List Char) :=
  match r.dropWhile Char.isWhitespace with
  | [] => none
  | c :: r2 =>
    if c = '(' then
      match r2.takeWhile Char.isDigit, r2.dropWhile Char.isDigit with
      | [], _ => none
      | _ :: _, [] => none
      | _ :: _, c2 :: r4 =>
        if c2 = ')' then
          match r4 with
          | [] => some []
          | c3 :: t => if c3 = '.' ∧ t ≠ [] ∧ t.all isWordChar then some (c3 :: t) else none
        else none
    else none

/-- Backtracking search for the non-greedy capture `(?P<base>.+?)`:
try the shortest non-empty base first, growing it one character at a time.
`pre` is the base text accumulated so far.  A base character may not be a
newline (`.` does not match `\n` in the Rust regex crate's default mode). -/
def scanBase (pre : List Char) : List Char → Option (List Char × List Char)
  | [] => none
  | c :: rest =>
    if c = '\n' then none
    else
      match enumSuffix? rest with
      | some ext => some (pre ++ [c], ext)
      | none => scanBase (pre ++ [c]) rest

/-- Whole-string match of `^(?P<base>.+?)\s*\(\d+\)(?P<ext>\.\w+)?$`,
returning the `base` and `ext` capture texts. -/
def matchEnum (s : List Char) : Option (List Char × List Char) :=
  scanBase [] s

/-- `normalize_file` from src/main.rs lines 24-36, on `List Char`. -/
def normalizeL (s : List Char) : List Char :=
  match matchEnum s with
  | some (b, ext) => b ++ ext
  | none => s

/-- `normalize_file` from src/main.rs lines 24-36: strip an enumeration
suffix "base (n)[.ext]" down to "base[.ext]"; return the input unchanged
when the pattern does not match. -/
def normalize_file (s : String) : String := ⟨normalizeL s.data⟩

/-- Model of `capture.name(..)` results for a successful match of the
regex in `normalize_file`: each named group is present (`some`) exactly
when it participates in the match.  The mandatory `base` group always
participates; the optional `ext` group participates iff the extension
text is non-empty (`\.\w+` can never capture an empty string). -/
structure RegexCaptures where
  base : Option (List Char)
  ext : Option (List Char)
deriving Repr, DecidableEq

/-- The captures of `normalize_file`'s regex on `s`, or `none` when the
regex does not match. -/
def captures? (s : List Char) : Option RegexCaptures :=
  (matchEnum s).map (fun be => ⟨some be.1, if be.2.isEmpty then none else some be.2⟩)

/-- `normalize_file` with its internal fallible operations made explicit:
`capture.name("base").unwrap()` (src/main.rs line 29) is modelled as a
lookup that yields `none` — a panic — if the `base` group were absent,
and `capture.name("ext").map_or("", ..)` (line 31) as an `Option` default. -/
def normalize_fileO (s : List Char) : Option (List Char) :=
  match captures? s with
  | some caps =>
    match caps.base with
    | none => none
    | some b => some (b ++ caps.ext.getD [])
  | none => some s

/-- `FileData` from src/main.rs lines 17-21, restricted to entries whose
metadata was successfully read: `created`/`modified` are the two
timestamps the program extracts from `Metadata` (modelled as `Nat`,
`SystemTime` being totally ordered). -/
structure FileData where
  filepath : List Char
  created : Nat
  modified : Nat
deriving Repr, DecidableEq

/-- `compare_file_data` from src/main.rs lines 47-62: ascending
lexicographic comparison on (created, modified). -/
def compare_file_data (a b : FileData) : Ordering :=
  (compare a.created b.created).then (compare a.modified b.modified)

/-- The "less or equal" Boolean relation induced by `compare_file_data`,
as used by the stable `sort_by` at src/main.rs line 104: a precedes b
whenever the comparator does not answer `Greater`. -/
def fileLe (a b : FileData) : Bool := compare_file_data a b ≠ Ordering.gt

/-- `Path::file_name` (src/main.rs line 72): the component after the last
separator.  (The `None` cases of `file_name` — paths ending in `..` or a
bare root — do not arise for walked entries and are not modelled.) -/
def basenameL (p : List Char) : List Char :=
  (p.reverse.takeWhile (fun c => c ≠ '/')).reverse

/-- The grouping key of a record (src/main.rs line 72): `normalize_file`
of the basename of its path. -/
def fileKey (fd : FileData) : List Char := normalizeL (basenameL fd.filepath)

/-- Appending insertion into the duplicate map (src/main.rs lines 76-95):
push onto the existing entry for key `k`, or create a fresh singleton
entry.  The `HashMap<String, Vec<FileData>>` is modelled as an
association list; only its key-indexed contents matter. -/
def insertRec (k : List Char) (fd : α) :
    List (List Char × List α) → List (List Char × List α)
  | [] => [(k, [fd])]
  | (k', v) :: t => if k' = k then (k', v ++ [fd]) :: t else (k', v) :: insertRec k fd t

/-- The map built by the walking loop of `group_duplicates`
(src/main.rs lines 68-96), generic in the key function. -/
def buildMap (key : α → List Char) (rs : List α) : List (List Char × List α) :=
  rs.foldl (fun m fd => insertRec (key fd) fd m) []

/-- `duplicate_map.retain(|_, v| v.len() > 1)` (src/main.rs line 99). -/
def retainDups (m : List (List Char × List α)) : List (List Char × List α) :=
  m.filter (fun kv => 1 < kv.2.length)

/-- `values.sort_by(compare_file_data)` (src/main.rs line 104): Rust's
`sort_by` is a stable ascending sort, modelled by `List.mergeSort`. -/
def sortGroup (v : List FileData) : List FileData := v.mergeSort fileLe

/-- `group_duplicates` from src/main.rs lines 65-107, on the list of
walked records (metadata already read): build the map keyed by the
normalized basename, keep entries with more than one record, sort each
retained group by (created, modified). -/
def group_duplicates (rs : List FileData) : List (List Char × List FileData) :=
  (retainDups (buildMap fileKey rs)).map (fun kv => (kv.1, sortGroup kv.2))

/-- Association-list lookup, modelling `HashMap` key access. -/
def lookupGroup (m : List (List Char × List α)) (k : List Char) : Option (List α) :=
  (m.find? (fun kv => kv.1 = k)).map (fun kv => kv.2)

/-- A traversed entry before its metadata has been read.  `metadata` is
`none` when `e.path().metadata()` fails (src/main.rs lines 81, 90), and
otherwise carries the results of `metadata.created()` / `metadata.modified()`
(each `none` when the platform does not supply that timestamp,
src/main.rs lines 49-54). -/
structure RawFile where
  filepath : List Char
  metadata : Option (Option Nat × Option Nat)
deriving Repr, DecidableEq

/-- A traversed entry after `metadata()` succeeded, timestamps still
unexamined (they are only unwrapped inside `compare_file_data`). -/
structure RawData where
  filepath : List Char
  created : Option Nat
  modified : Option Nat
deriving Repr, DecidableEq

/-- Grouping key of a raw record: `normalize_file` of its basename. -/
def rawKey (r : RawData) : List Char := normalizeL (basenameL r.filepath)

/-- The walking loop's metadata reads (src/main.rs lines 81, 90): each
entry's `metadata().unwrap()` panics — modelled as `Except.error` — as
soon as one entry's metadata cannot be read. -/
def readMeta : List RawFile → Except Unit (List RawData)
  | [] => .ok []
  | r :: t =>
    match r.metadata with
    | none => .error ()
    | some (c, m) =>
      match readMeta t with
      | .error e => .error e
      | .ok rest => .ok (⟨r.filepath, c, m⟩ :: rest)

/-- The timestamp unwraps performed by `compare_file_data`
(src/main.rs lines 49-54) while a retained group is sorted: sorting a
group of length ≥ 2 compares every member at least once, so a missing
`created` or `modified` timestamp on any member panics. -/
def checkTimes : List RawData → Except Unit (List FileData)
  | [] => .ok []
  | r :: t =>
    match r.created, r.modified with
    | some c, some m =>
      match checkTimes t with
      | .error e => .error e
      | .ok rest => .ok (⟨r.filepath, c, m⟩ :: rest)
    | _, _ => .error ()

/-- Sorting one retained group (src/main.rs line 104), with the
comparator's unwraps made explicit. -/
def sortGroupE (v : List RawData) : Except Unit (List FileData) :=
  match checkTimes v with
  | .error e => .error e
  | .ok fs => .ok (sortGroup fs)

/-- The sorting loop over all retained groups (src/main.rs lines 102-105). -/
def mapGroupsE :
    List (List Char × List RawData) → Except Unit (List (List Char × List FileData))
  | [] => .ok []
  | (k, v) :: t =>
    match sortGroupE v with
    | .error e => .error e
    | .ok g =>
      match mapGroupsE t with
      | .error e => .error e
      | .ok gs => .ok ((k, g) :: gs)

/-- `group_duplicates` (src/main.rs lines 65-107) with every `unwrap` on
filesystem metadata modelled as `Except`: read each walked entry's
metadata, build the map keyed by the normalized basename, retain entries
with more than one record, then sort each retained group (unwrapping its
members' timestamps). -/
def group_duplicatesE (rs : List RawFile) :
    Except Unit (List (List Char × List FileData)) :=
  match readMeta rs with
  | .error e => .error e
  | .ok raw => mapGroupsE (retainDups (buildMap rawKey raw))

instance {ε α : Type} [DecidableEq ε] [DecidableEq α] : DecidableEq (Except ε α) :=
  fun x y =>
    match x, y with
    | .ok a, .ok b => if h : a = b then isTrue (by rw [h]) else isFalse (by simp [h])
    | .error a, .error b => if h : a = b then isTrue (by rw [h]) else isFalse (by simp [h])
    | .ok _, .error _ => isFalse (by simp)
    | .error _, .ok _ => isFalse (by simp)

/-- `is_hidden` from src/main.rs lines 39-44: the entry's file name starts
with a dot.  (The `to_str` failure branch, which answers `false` for
non-UTF-8 names, does not arise in this `List Char` model.) -/
def is_hidden (name : List Char) : Bool :=
  match name with
  | c :: _ => c = '.'
  | [] => false

/-- One node of the directory tree walked by `WalkDir`: its file name,
the timestamps its metadata reports, and its children (empty for plain
files).  Directories are entries too, exactly as `WalkDir` yields them. -/
inductive FSEntry where
  | mk (name : List Char) (created : Nat) (modified : Nat) (children : List FSEntry)
deriving Repr

def FSEntry.name : FSEntry → List Char
  | .mk n _ _ _ => n

mutual
/-- The walk of src/main.rs lines 68-69: `WalkDir::new(..)` filtered by
`filter_entry(|e| !is_hidden(e))`, which prunes a hidden entry together
with its entire subtree.  `pre` is the path prefix of the current entry;
one `FileData` is produced per visited entry, directories included. -/
def walkEntry (pre : List Char) : FSEntry → List FileData
  | .mk name c m children =>
    if is_hidden name then []
    else ⟨pre ++ name, c, m⟩ :: walkChildren (pre ++ name ++ ['/']) children

def walkChildren (pre : List Char) : List FSEntry → List FileData
  | [] => []
  | e :: es => walkEntry pre e ++ walkChildren pre es
end

/-- A walked record repackaged as a raw record whose metadata reads all
succeed, for feeding the walk into `group_duplicatesE`. -/
def toRaw (fd : FileData) : RawFile :=
  ⟨fd.filepath, some (some fd.created, some fd.modified)⟩

/-- The rename target computed at src/main.rs line 118:
`normalize_file` applied to the survivor's full path string. -/
def renameTarget (fd : FileData) : List Char := normalizeL fd.filepath

/-- The body of the consolidation loop (src/main.rs lines 110-121) for
one group `v`, acting on the set `fs` of paths that exist on disk:
`remove_file` each of the first `v.len() - 1` records' paths, then rename
the last record's file to `renameTarget` (delete the old path, create the
new one).  `v.last().unwrap()` cannot fail on the groups actually handed
over (they have length ≥ 2); the `none` branch is unreachable there. -/
def deleteGroup (fs : Finset (List Char)) (v : List FileData) : Finset (List Char) :=
  let fs1 := (v.take (v.length - 1)).foldl (fun s f => s.erase f.filepath) fs
  match v.getLast? with
  | some lastf => insert (renameTarget lastf) (fs1.erase lastf.filepath)
  | none => fs1

/-- `delete_duplicates` from src/main.rs lines 109-122: consolidate every
group of the map. -/
def delete_duplicates (fs : Finset (List Char))
    (m : List (List Char × List FileData)) : Finset (List Char) :=
  m.foldl (fun s kv => deleteGroup s kv.2) fs

/-! ### Lemmas about the normalizer -/

theorem scanBase_pre (l : List Char) (pre : List Char) :
    scanBase pre l = (scanBase [] l).map (fun be => (pre ++ be.1, be.2)) := by
  induction l generalizing pre with
  | nil => simp [scanBase]
  | cons c rest ih =>
    by_cases hc : c = '\n'
    · simp [scanBase, hc]
    · cases h : enumSuffix? rest with
      | some ext => simp [scanBase, hc, h]
      | none =>
        simp only [scanBase, hc, if_false, h, List.nil_append]
        rw [ih, ih [c]]
        cases scanBase [] rest <;> simp

theorem scanBase_eq_some {l b e : List Char} (h : scanBase [] l = some (b, e)) :
    ∃ r, l = b ++ r ∧ enumSuffix? r = some e ∧ b ≠ [] := by
  induction l generalizing b e with
  | nil => simp [scanBase] at h
  | cons c rest ih =>
    by_cases hc : c = '\n'
    · simp [scanBase, hc] at h
    · cases he : enumSuffix? rest with
      | some ext =>
        simp only [scanBase, hc, if_false, he, List.nil_append, Option.some.injEq,
          Prod.mk.injEq] at h
        obtain ⟨hb, hext⟩ := h
        exact ⟨rest, by rw [← hb]; rfl, by rw [he, hext], by rw [← hb]; simp⟩
      | none =>
        simp only [scanBase, hc, if_false, he, List.nil_append] at h
        rw [scanBase_pre] at h
        cases hs : scanBase [] rest with
        | none => rw [hs] at h; simp at h
        | some be' =>
          obtain ⟨b', e'⟩ := be'
          rw [hs] at h
          simp only [Option.map, Option.some.injEq, Prod.mk.injEq] at h
          obtain ⟨hb, hext⟩ := h
          obtain ⟨r, hrest, hr, hb'⟩ := ih hs
          refine ⟨r, ?_, by rw [hr, hext], by rw [← hb]; simp⟩
          rw [← hb, hrest]
          rfl

theorem matchEnum_decomp {s b e : List Char} (h : matchEnum s = some (b, e)) :
    ∃ r, s = b ++ r ∧ enumSuffix? r = some e ∧ b ≠ [] :=
  scanBase_eq_some h

theorem enumSuffix?_length {r e : List Char} (h : enumSuffix? r = some e) :
    e.length + 3 ≤ r.length := by
  have hsplit : r.length =
      (r.takeWhile Char.isWhitespace).length + (r.dropWhile Char.isWhitespace).length := by
    rw [← List.length_append, List.takeWhile_append_dropWhile]
  have hsplit2 : (r.dropWhile Char.isWhitespace).length =
      ((r.dropWhile Char.isWhitespace).drop 1).length + 1 ∨
      r.dropWhile Char.isWhitespace = [] := by
    cases r.dropWhile Char.isWhitespace <;> simp
  unfold enumSuffix? at h
  split at h
  · simp at h
  · rename_i c r2 hd
    split at h
    · rename_i hc
      have hsplit3 : r2.length =
          (r2.takeWhile Char.isDigit).length + (r2.dropWhile Char.isDigit).length := by
        rw [← List.length_append, List.takeWhile_append_dropWhile]
      split at h
      · simp at h
      · simp at h
      · rename_i d ds c2 r4 ht hdd
        split at h
        · rw [hd] at hsplit
          rw [ht, hdd] at hsplit3
          split at h
          · simp only [Option.some.injEq] at h
            subst h
            simp at hsplit hsplit3 ⊢
            omega
          · split at h
            · simp only [Option.some.injEq] at h
              subst h
              simp at hsplit hsplit3 ⊢
              omega
            · simp at h
        · simp at h
    · simp at h

theorem matchEnum_ne_result {s b e : List Char} (h : matchEnum s = some (b, e)) :
    b ++ e ≠ s := by
  obtain ⟨r, hs, hr, -⟩ := matchEnum_decomp h
  intro hcontra
  rw [hs] at hcontra
  have he : e = r := List.append_cancel_left hcontra
  subst he
  have := enumSuffix?_length hr
  omega

theorem normalizeL_eq_self_iff (y : List Char) :
    normalizeL y = y ↔ matchEnum y = none := by
  constructor
  · intro h
    cases hm : matchEnum y with
    | none => rfl
    | some be =>
      obtain ⟨b, e⟩ := be
      have hbe : b ++ e = y := by simpa [normalizeL, hm] using h
      exact absurd hbe (matchEnum_ne_result hm)
  · intro h; simp [normalizeL, h]

theorem enumSuffix?_shape {r e : List Char} (h : enumSuffix? r = some e) :
    ∀ c ∈ r, c.isWhitespace ∨ c = '(' ∨ c.isDigit ∨ c = ')' ∨ c = '.' ∨ isWordChar c := by
  intro c hc
  have hsplit : r = r.takeWhile Char.isWhitespace ++ r.dropWhile Char.isWhitespace :=
    (List.takeWhile_append_dropWhile ..).symm
  rw [hsplit] at hc
  rcases List.mem_append.mp hc with hws | hrest
  · exact Or.inl (List.mem_takeWhile_imp hws)
  · unfold enumSuffix? at h
    split at h
    · rename_i hd
      rw [hd] at hrest
      simp at hrest
    · rename_i c0 r2 hd
      rw [hd] at hrest
      split at h
      · rename_i hc0
        rcases List.mem_cons.mp hrest with hceq | hr2
        · exact Or.inr (Or.inl (hceq.trans hc0))
        · have hsplit2 : r2 = r2.takeWhile Char.isDigit ++ r2.dropWhile Char.isDigit :=
            (List.takeWhile_append_dropWhile ..).symm
          rw [hsplit2] at hr2
          rcases List.mem_append.mp hr2 with hdig | hr3
          · exact Or.inr (Or.inr (Or.inl (List.mem_takeWhile_imp hdig)))
          · split at h
            · simp at h
            · simp at h
            · rename_i d ds c2 r4 ht hdd
              rw [hdd] at hr3
              split at h
              · rename_i hc2
                rcases List.mem_cons.mp hr3 with hceq | hr4
                · exact Or.inr (Or.inr (Or.inr (Or.inl (hceq.trans hc2))))
                · split at h
                  · simp at hr4
                  · split at h
                    · rename_i hcond
                      obtain ⟨hdot, -, hall⟩ := hcond
                      rcases List.mem_cons.mp hr4 with hceq | hct
                      · exact Or.inr (Or.inr (Or.inr (Or.inr (Or.inl (hceq.trans hdot)))))
                      · exact Or.inr (Or.inr (Or.inr (Or.inr (Or.inr
                          (List.all_eq_true.mp hall c hct)))))
                    · simp at h
              · simp at h
      · simp at h

theorem enumSuffix?_eq_none_of_slash {r : List Char} (h : '/' ∈ r) :
    enumSuffix? r = none := by
  cases he : enumSuffix? r with
  | none => rfl
  | some e => exact absurd (enumSuffix?_shape he '/' h) (by decide)

theorem matchEnum_under_dir (dir base : List Char) (hnl : '\n' ∉ dir)
    (hbase : enumSuffix? base = none) :
    matchEnum (dir ++ '/' :: base) =
      (matchEnum base).map (fun be => (dir ++ '/' :: be.1, be.2)) := by
  induction dir with
  | nil =>
    show scanBase [] ('/' :: base) = _
    have : ('/' : Char) ≠ '\n' := by decide
    simp only [scanBase, this, if_false, hbase]
    rw [scanBase_pre]
    show _ = (scanBase [] base).map _
    cases scanBase [] base <;> simp [matchEnum]
  | cons d ds ih =>
    have hd : d ≠ '\n' := fun h => hnl (h ▸ List.mem_cons_self d ds)
    have hds : '\n' ∉ ds := fun h => hnl (List.mem_cons_of_mem d h)
    have hslash : enumSuffix? (ds ++ '/' :: base) = none :=
      enumSuffix?_eq_none_of_slash (List.mem_append.mpr (Or.inr (List.mem_cons_self ..)))
    show scanBase [] (d :: (ds ++ '/' :: base)) = _
    simp only [scanBase, hd, if_false, hslash]
    rw [scanBase_pre]
    have := ih hds
    rw [matchEnum] at this
    rw [this]
    rw [matchEnum]
    cases scanBase [] base <;> simp

theorem normalizeL_under_dir (dir base : List Char) (hnl : '\n' ∉ dir)
    (hbase : enumSuffix? base = none) :
    normalizeL (dir ++ '/' :: base) = dir ++ '/' :: normalizeL base := by
  have h := matchEnum_under_dir dir base hnl hbase
  unfold normalizeL
  rw [h]
  cases matchEnum base with
  | none => simp
  | some be => obtain ⟨b, e⟩ := be; simp

/-! ### Lemmas about the duplicate map -/

theorem lookupGroup_nil {α : Type} (k : List Char) :
    lookupGroup ([] : List (List Char × List α)) k = none := rfl

theorem lookupGroup_cons {α : Type} (k' : List Char) (v : List α) (t) (k : List Char) :
    lookupGroup ((k', v) :: t) k = if k' = k then some v else lookupGroup t k := by
  by_cases h : k' = k <;> simp [lookupGroup, List.find?_cons, h]

theorem lookup_insertRec {α : Type} (m : List (List Char × List α)) (k k' : List Char)
    (fd : α) :
    lookupGroup (insertRec k' fd m) k =
      if k' = k then some ((lookupGroup m k).getD [] ++ [fd]) else lookupGroup m k := by
  induction m with
  | nil =>
    by_cases h : k' = k <;> simp [insertRec, lookupGroup_cons, lookupGroup_nil, h]
  | cons kv t ih =>
    obtain ⟨k0, v⟩ := kv
    by_cases h0 : k0 = k'
    · subst h0
      simp only [insertRec, if_pos rfl]
      by_cases hk : k0 = k <;> simp [lookupGroup_cons, hk]
    · have hstep : insertRec k' fd ((k0, v) :: t) = (k0, v) :: insertRec k' fd t := by
        simp [insertRec, h0]
      rw [hstep, lookupGroup_cons, lookupGroup_cons, ih]
      by_cases hk : k0 = k
      · subst hk
        have hk' : ¬(k' = k0) := fun h => h0 h.symm
        simp [hk']
      · simp [hk]

theorem lookupGroup_foldl_insert {α : Type} [DecidableEq α] (key : α → List Char)
    (rs : List α) (m : List (List Char × List α)) (k : List Char) :
    lookupGroup (rs.foldl (fun m fd => insertRec (key fd) fd m) m) k =
      match lookupGroup m k with
      | some v => some (v ++ rs.filter (fun r => key r = k))
      | none =>
        if rs.filter (fun r => key r = k) = [] then none
        else some (rs.filter (fun r => key r = k)) := by
  induction rs generalizing m with
  | nil => cases h : lookupGroup m k <;> simp [h]
  | cons fd t ih =>
    show lookupGroup (t.foldl _ (insertRec (key fd) fd m)) k = _
    rw [ih]
    rw [lookup_insertRec]
    by_cases hfd : key fd = k
    · rw [if_pos hfd]
      cases hm : lookupGroup m k with
      | some v => simp [List.filter_cons, hfd]
      | none => simp [List.filter_cons, hfd]
    · rw [if_neg hfd]
      cases hm : lookupGroup m k with
      | some v => simp [List.filter_cons, hfd]
      | none => simp [List.filter_cons, hfd]

theorem lookupGroup_buildMap {α : Type} [DecidableEq α] (key : α → List Char)
    (rs : List α) (k : List Char) :
    lookupGroup (buildMap key rs) k =
      if rs.filter (fun r => key r = k) = [] then none
      else some (rs.filter (fun r => key r = k)) := by
  unfold buildMap
  rw [lookupGroup_foldl_insert]
  rfl

theorem map_fst_insertRec {α : Type} (k : List Char) (fd : α) (m) :
    (insertRec k fd m).map Prod.fst =
      if k ∈ m.map Prod.fst then m.map Prod.fst else m.map Prod.fst ++ [k] := by
  induction m with
  | nil => simp [insertRec]
  | cons kv t ih =>
    obtain ⟨k0, v⟩ := kv
    by_cases h0 : k0 = k
    · subst h0
      simp [insertRec]
    · have hne : ¬(k = k0) := fun h => h0 h.symm
      rw [show insertRec k fd ((k0, v) :: t) = (k0, v) :: insertRec k fd t by
        simp [insertRec, h0]]
      simp only [List.map_cons, List.mem_cons, ih]
      by_cases hk : k ∈ t.map Prod.fst <;> simp [hk, hne]

theorem nodup_map_fst_insertRec {α : Type} {m} (k : List Char) (fd : α)
    (h : (m.map Prod.fst).Nodup) : ((insertRec k fd m).map Prod.fst).Nodup := by
  rw [map_fst_insertRec]
  by_cases hk : k ∈ m.map Prod.fst
  · simpa [hk] using h
  · simp only [hk, if_false]
    simp [List.nodup_append, h, hk]

theorem nodup_map_fst_buildMap {α : Type} (key : α → List Char) (rs : List α) :
    ((buildMap key rs).map Prod.fst).Nodup := by
  suffices h : ∀ m : List (List Char × List α), (m.map Prod.fst).Nodup →
      (((rs.foldl (fun m fd => insertRec (key fd) fd m) m)).map Prod.fst).Nodup by
    exact h [] (by simp)
  induction rs with
  | nil => intro m hm; exact hm
  | cons fd t ih =>
    intro m hm
    exact ih _ (nodup_map_fst_insertRec _ _ hm)

theorem mem_iff_lookupGroup {α : Type} {m : List (List Char × List α)} {k : List Char}
    {v : List α} (hnd : (m.map Prod.fst).Nodup) : (k, v) ∈ m ↔ lookupGroup m k = some v := by
  induction m with
  | nil => simp [lookupGroup_nil]
  | cons kv t ih =>
    obtain ⟨k0, v0⟩ := kv
    simp only [List.map_cons, List.nodup_cons] at hnd
    obtain ⟨hk0, hnd'⟩ := hnd
    rw [lookupGroup_cons]
    by_cases hk : k0 = k
    · subst hk
      rw [if_pos rfl]
      simp only [List.mem_cons, Option.some.injEq, Prod.mk.injEq]
      constructor
      · rintro (⟨-, hv⟩ | hmem)
        · exact hv.symm
        · exact absurd (List.mem_map_of_mem Prod.fst hmem) hk0
      · intro hv; exact Or.inl ⟨by trivial, hv.symm⟩
    · rw [if_neg hk]
      rw [← ih hnd']
      simp only [List.mem_cons, Prod.mk.injEq]
      constructor
      · rintro (⟨hkeq, -⟩ | hmem)
        · exact absurd hkeq.symm hk
        · exact hmem
      · exact Or.inr

theorem mem_group_duplicates {rs : List FileData} {k : List Char} {g : List FileData} :
    (k, g) ∈ group_duplicates rs ↔
      2 ≤ (rs.filter (fun r => fileKey r = k)).length ∧
      g = sortGroup (rs.filter (fun r => fileKey r = k)) := by
  constructor
  · intro h
    obtain ⟨⟨k', v⟩, hmem, heq⟩ := List.mem_map.mp h
    simp only [Prod.mk.injEq] at heq
    obtain ⟨hkeq, hgeq⟩ := heq
    subst hkeq
    obtain ⟨hmem', hlen⟩ := List.mem_filter.mp hmem
    have hlk := (mem_iff_lookupGroup (nodup_map_fst_buildMap fileKey rs)).mp hmem'
    rw [lookupGroup_buildMap] at hlk
    split at hlk
    · simp at hlk
    · simp only [Option.some.injEq] at hlk
      subst hlk
      simp only [decide_eq_true_eq] at hlen
      exact ⟨hlen, hgeq.symm⟩
  · rintro ⟨hlen, hg⟩
    have hne : rs.filter (fun r => fileKey r = k) ≠ [] := by
      intro hnil; rw [hnil] at hlen; simp at hlen
    have hlk : lookupGroup (buildMap fileKey rs) k =
        some (rs.filter (fun r => fileKey r = k)) := by
      rw [lookupGroup_buildMap, if_neg hne]
    have hmem' := (mem_iff_lookupGroup (nodup_map_fst_buildMap fileKey rs)).mpr hlk
    apply List.mem_map.mpr
    refine ⟨(k, rs.filter (fun r => fileKey r = k)), ?_, by simp [hg]⟩
    apply List.mem_filter.mpr
    exact ⟨hmem', by simpa using hlen⟩

/-! ### Lemmas about the ordering and the stable sort -/

theorem fileLe_iff (a b : FileData) : fileLe a b = true ↔
    a.created < b.created ∨ (a.created = b.created ∧ a.modified ≤ b.modified) := by
  unfold fileLe compare_file_data
  rcases Nat.lt_trichotomy a.created b.created with h | h | h
  · rw [(Nat.compare_eq_lt ..).mpr h]
    simp [Ordering.then, h]
  · rw [(Nat.compare_eq_eq ..).mpr h]
    rcases Nat.lt_trichotomy a.modified b.modified with h2 | h2 | h2
    · rw [(Nat.compare_eq_lt ..).mpr h2]
      simp [Ordering.then, h, Nat.le_of_lt h2]
    · rw [(Nat.compare_eq_eq ..).mpr h2]
      simp [Ordering.then, h, Nat.le_of_eq h2]
    · rw [(Nat.compare_eq_gt ..).mpr h2]
      simp [Ordering.then, h]
      omega
  · rw [(Nat.compare_eq_gt ..).mpr h]
    simp [Ordering.then]
    omega

theorem fileLe_trans : ∀ (a b c : FileData),
    fileLe a b → fileLe b c → fileLe a c := by
  intro a b c hab hbc
  rw [fileLe_iff] at hab hbc ⊢
  omega

theorem fileLe_total : ∀ (a b : FileData), fileLe a b || fileLe b a := by
  intro a b
  cases h : fileLe a b with
  | true => simp
  | false =>
    have h2 : ¬(a.created < b.created ∨ (a.created = b.created ∧ a.modified ≤ b.modified)) := by
      rw [← fileLe_iff]; simp [h]
    have : fileLe b a = true := by
      rw [fileLe_iff]; omega
    simp [this]

theorem sortGroup_pairwise (v : List FileData) :
    (sortGroup v).Pairwise (fun a b => fileLe a b = true) :=
  List.sorted_mergeSort fileLe_trans fileLe_total v

theorem sortGroup_perm (v : List FileData) : List.Perm (sortGroup v) v :=
  List.mergeSort_perm v fileLe

theorem sortGroup_filter_stamp (v : List FileData) (c m : Nat) :
    (sortGroup v).filter (fun r => r.created = c ∧ r.modified = m) =
      v.filter (fun r => r.created = c ∧ r.modified = m) := by
  have hself : (v.filter (fun r => r.created = c ∧ r.modified = m)).filter
      (fun r => r.created = c ∧ r.modified = m) =
      v.filter (fun r => r.created = c ∧ r.modified = m) := by
    apply List.filter_eq_self.mpr
    intro a ha
    exact (List.mem_filter.mp ha).2
  have hpw : (v.filter (fun r => r.created = c ∧ r.modified = m)).Pairwise
      (fun a b => fileLe a b = true) := by
    apply List.pairwise_of_forall_mem_list
    intro a ha b hb
    obtain ⟨-, ha2⟩ := List.mem_filter.mp ha
    obtain ⟨-, hb2⟩ := List.mem_filter.mp hb
    simp only [decide_eq_true_eq] at ha2 hb2
    rw [fileLe_iff]
    omega
  have hsub : List.Sublist (v.filter (fun r => r.created = c ∧ r.modified = m))
      (sortGroup v) :=
    List.sublist_mergeSort fileLe_trans fileLe_total hpw (List.filter_sublist v)
  have hsub2 : List.Sublist (v.filter (fun r => r.created = c ∧ r.modified = m))
      ((sortGroup v).filter (fun r => r.created = c ∧ r.modified = m)) := by
    have := hsub.filter (fun r => decide (r.created = c ∧ r.modified = m))
    rwa [hself] at this
  have hlen : ((sortGroup v).filter (fun r => r.created = c ∧ r.modified = m)).length =
      (v.filter (fun r => r.created = c ∧ r.modified = m)).length :=
    ((sortGroup_perm v).filter _).length_eq
  exact (hsub2.eq_of_length hlen.symm).symm

theorem sortGroup_length (v : List FileData) : (sortGroup v).length = v.length :=
  (sortGroup_perm v).length_eq

/-! ### Lemmas about the fallible metadata pipeline -/

theorem readMeta_error_of_missing {rs : List RawFile} (h : ∃ r ∈ rs, r.metadata = none) :
    readMeta rs = .error () := by
  induction rs with
  | nil => simp at h
  | cons r t ih =>
    obtain ⟨r0, hmem, hnone⟩ := h
    rcases List.mem_cons.mp hmem with heq | hmem'
    · subst heq
      unfold readMeta
      rw [hnone]
    · unfold readMeta
      cases hm : r.metadata with
      | none => rfl
      | some cm =>
        obtain ⟨c, m⟩ := cm
        rw [ih ⟨r0, hmem', hnone⟩]

theorem checkTimes_error_of_missing {v : List RawData}
    (h : ∃ r ∈ v, r.created = none ∨ r.modified = none) : checkTimes v = .error () := by
  induction v with
  | nil => simp at h
  | cons r t ih =>
    obtain ⟨r0, hmem, hmiss⟩ := h
    rcases List.mem_cons.mp hmem with heq | hmem'
    · subst heq
      unfold checkTimes
      rcases hmiss with hc | hm
      · rw [hc]
      · cases hcr : r0.created with
        | none => rfl
        | some c => rw [hm]
    · unfold checkTimes
      cases hcr : r.created with
      | none => rfl
      | some c =>
        cases hmo : r.modified with
        | none => rfl
        | some m => rw [ih ⟨r0, hmem', hmiss⟩]

theorem sortGroupE_error_of_missing {v : List RawData}
    (h : ∃ r ∈ v, r.created = none ∨ r.modified = none) : sortGroupE v = .error () := by
  unfold sortGroupE
  rw [checkTimes_error_of_missing h]

theorem mapGroupsE_error {m : List (List Char × List RawData)}
    (h : ∃ kv ∈ m, sortGroupE kv.2 = .error ()) : mapGroupsE m = .error () := by
  induction m with
  | nil => simp at h
  | cons kv t ih =>
    obtain ⟨kv0, hmem, herr⟩ := h
    obtain ⟨k, v⟩ := kv
    rcases List.mem_cons.mp hmem with heq | hmem'
    · subst heq
      have herr' : sortGroupE v = Except.error () := herr
      unfold mapGroupsE
      rw [herr']
    · unfold mapGroupsE
      cases hs : sortGroupE v with
      | error e => rfl
      | ok g => rw [ih ⟨kv0, hmem', herr⟩]

theorem group_duplicatesE_error_of_meta {rs : List RawFile}
    (h : ∃ r ∈ rs, r.metadata = none) : group_duplicatesE rs = .error () := by
  unfold group_duplicatesE
  rw [readMeta_error_of_missing h]

theorem group_duplicatesE_error_of_created {rs : List RawFile} {raw : List RawData}
    (hok : readMeta rs = .ok raw) {kv : List Char × List RawData}
    (hkv : kv ∈ retainDups (buildMap rawKey raw))
    (hmiss : ∃ r ∈ kv.2, r.created = none ∨ r.modified = none) :
    group_duplicatesE rs = .error () := by
  unfold group_duplicatesE
  rw [hok]
  exact mapGroupsE_error ⟨kv, hkv, sortGroupE_error_of_missing hmiss⟩

/-! ### Lemmas about the consolidator -/

theorem foldl_erase_eq_sdiff (fs : Finset (List Char)) (l : List FileData) :
    l.foldl (fun s f => s.erase f.filepath) fs = fs \ (l.map FileData.filepath).toFinset := by
  induction l generalizing fs with
  | nil => simp
  | cons f t ih =>
    show t.foldl _ (fs.erase f.filepath) = _
    rw [ih]
    ext x
    simp [Finset.mem_sdiff, Finset.mem_erase]
    tauto

theorem deleteGroup_eq {fs : Finset (List Char)} {v : List FileData} {lastf : FileData}
    (h : v.getLast? = some lastf) :
    deleteGroup fs v =
      insert (renameTarget lastf) (fs \ (v.map FileData.filepath).toFinset) := by
  have hne : v ≠ [] := by
    intro h0
    rw [h0] at h
    simp at h
  have hlast : lastf = v.getLast hne := by
    have hg := List.getLast?_eq_getLast v hne
    rw [hg] at h
    exact (Option.some.inj h).symm
  unfold deleteGroup
  rw [h]
  rw [foldl_erase_eq_sdiff]
  have htake : v.take (v.length - 1) = v.dropLast := by
    rw [List.dropLast_eq_take]
  rw [htake]
  have hsplit : v.dropLast ++ [lastf] = v := by
    rw [hlast]
    exact List.dropLast_append_getLast hne
  conv_rhs => rw [← hsplit]
  ext x
  simp [Finset.mem_sdiff, Finset.mem_erase]
  tauto

theorem delete_duplicates_single (fs : Finset (List Char)) (k : List Char)
    (v : List FileData) : delete_duplicates fs [(k, v)] = deleteGroup fs v := rfl

/-! ### Walker and normalizer support lemmas for the claims -/

theorem takeWhile_append_of_all {p : Char → Bool} {l₁ l₂ : List Char} {a : Char}
    (h : ∀ x ∈ l₁, p x = true) (ha : p a = false) :
    (l₁ ++ a :: l₂).takeWhile p = l₁ := by
  induction l₁ with
  | nil => simp [List.takeWhile_cons, ha]
  | cons x t ih =>
    have hx : p x = true := h x (List.mem_cons_self ..)
    have ih' := ih (fun y hy => h y (List.mem_cons_of_mem _ hy))
    simp [List.takeWhile_cons, hx, ih']

theorem basenameL_append {dir base : List Char} (h : '/' ∉ base) :
    basenameL (dir ++ '/' :: base) = base := by
  have hall : ∀ x ∈ base.reverse, (fun c => decide (c ≠ '/')) x = true := by
    intro x hx
    simp only [decide_eq_true_eq, ne_eq]
    intro hc
    exact h (hc ▸ List.mem_reverse.mp hx)
  have ha : (fun c => decide (c ≠ '/')) '/' = false := by simp
  have key : (base.reverse ++ '/' :: dir.reverse).takeWhile (fun c => c ≠ '/') =
      base.reverse :=
    takeWhile_append_of_all hall ha
  unfold basenameL
  rw [show (dir ++ '/' :: base).reverse = base.reverse ++ '/' :: dir.reverse by simp]
  rw [key, List.reverse_reverse]

/-! ### The claims -/

/-- C1, counterexample: for the survivor path "d/(3).txt" the rename
target computed by the consolidator is `normalize_file` of the full path,
"d/.txt" — not the survivor's directory joined with the normalized
basename, which would be "d/(3).txt" (the basename "(3).txt" does not
match the pattern since its base would be empty). -/
theorem c1_rename_target_counterexample :
    renameTarget ⟨"d/(3).txt".data, 0, 0⟩ = "d/.txt".data ∧
    "d".data ++ '/' :: normalizeL (basenameL "d/(3).txt".data) = "d/(3).txt".data ∧
    renameTarget ⟨"d/(3).txt".data, 0, 0⟩ ≠
      "d".data ++ '/' :: normalizeL (basenameL "d/(3).txt".data) := by
  decide

/-- C1, amended: the rename target of the survivor is `normalize_file`
applied to the survivor's full path; whenever the survivor's directory
contains no newline and its basename neither contains a separator nor is
itself a bare enumeration token "(n)[.ext]" (possibly preceded by
whitespace, i.e. an empty-base match), this equals the survivor's
directory joined with `normalize_file` of its basename, so the survivor
stays in its directory with only the basename normalized. -/
theorem c1_rename_target (dir base : List Char) (c m : Nat)
    (hnl : '\n' ∉ dir) (hsl : '/' ∉ base) (hbase : enumSuffix? base = none) :
    renameTarget ⟨dir ++ '/' :: base, c, m⟩ =
      dir ++ '/' :: normalizeL (basenameL (dir ++ '/' :: base)) := by
  unfold renameTarget
  rw [basenameL_append hsl]
  exact normalizeL_under_dir dir base hnl hbase

/-- C1, witness: the amended statement evaluated on the survivor path
"d/r (1).txt", whose rename target is "d/r.txt". -/
theorem c1_rename_target_witness :
    renameTarget ⟨"d".data ++ '/' :: "r (1).txt".data, 0, 0⟩ =
      "d".data ++ '/' :: normalizeL (basenameL ("d".data ++ '/' :: "r (1).txt".data)) :=
  c1_rename_target "d".data "r (1).txt".data 0 0 (by decide) (by decide) (by decide)

/-- C2, counterexample: normalize is not idempotent — "a (1) (2)"
normalizes to "a (1)", which normalizes further to "a". -/
theorem c2_idempotent_counterexample :
    normalize_file (normalize_file "a (1) (2)") ≠ normalize_file "a (1) (2)" := by
  decide

/-- C2, amended: `normalize_file (normalize_file x) = normalize_file x`
holds exactly when the once-normalized name no longer matches the
enumeration pattern; filenames with stacked enumeration suffixes such as
"a (1) (2)" violate idempotence, losing one suffix per application. -/
theorem c2_idempotent_iff (x : List Char) :
    normalizeL (normalizeL x) = normalizeL x ↔ matchEnum (normalizeL x) = none :=
  normalizeL_eq_self_iff (normalizeL x)

/-- C3, counterexample: consolidating the group of "d/photo.jpg"
(created 0) and "d/photo (1).jpg" (created 1) deletes "d/photo.jpg" and
renames the survivor onto that very path, so the non-survivor's path
still exists afterwards — the claim's "the other n-1 records' paths have
been deleted" fails in the final state. -/
theorem c3_consolidate_counterexample :
    ([⟨"d/photo.jpg".data, 0, 0⟩, ⟨"d/photo (1).jpg".data, 1, 0⟩] : List FileData).take 1 =
      [⟨"d/photo.jpg".data, 0, 0⟩] ∧
    delete_duplicates {"d/photo.jpg".data, "d/photo (1).jpg".data}
      [("photo.jpg".data,
        [⟨"d/photo.jpg".data, 0, 0⟩, ⟨"d/photo (1).jpg".data, 1, 0⟩])] =
      {"d/photo.jpg".data} ∧
    "d/photo.jpg".data ∈ delete_duplicates {"d/photo.jpg".data, "d/photo (1).jpg".data}
      [("photo.jpg".data,
        [⟨"d/photo.jpg".data, 0, 0⟩, ⟨"d/photo (1).jpg".data, 1, 0⟩])] := by
  decide

/-- C3, amended: consolidating one group `v` (ordered, survivor last)
over the on-disk path set `fs` yields exactly
`insert (renameTarget survivor) (fs minus all group paths)`: one file
derived from the last-ordered member remains, under the name
`normalize_file` of its full path; every group member's original path is
gone afterwards unless it coincides with that rename target (as in the
photo.jpg scenario); files outside the group are untouched. -/
theorem c3_consolidate_group (fs : Finset (List Char)) (k : List Char)
    (v : List FileData) (lastf : FileData) (h : v.getLast? = some lastf) :
    delete_duplicates fs [(k, v)] =
      insert (renameTarget lastf) (fs \ (v.map FileData.filepath).toFinset) ∧
    renameTarget lastf ∈ delete_duplicates fs [(k, v)] ∧
    ∀ f ∈ v, (f.filepath ∈ delete_duplicates fs [(k, v)] ↔
      f.filepath = renameTarget lastf) := by
  rw [delete_duplicates_single, deleteGroup_eq h]
  refine ⟨rfl, Finset.mem_insert_self .., ?_⟩
  intro f hf
  have hfS : f.filepath ∈ (v.map FileData.filepath).toFinset :=
    List.mem_toFinset.mpr (List.mem_map_of_mem FileData.filepath hf)
  simp only [Finset.mem_insert, Finset.mem_sdiff]
  constructor
  · rintro (heq | ⟨-, habs⟩)
    · exact heq
    · exact absurd hfS habs
  · exact Or.inl

/-- C3, witness: the amended statement evaluated on the group of
"d/a.txt" (created 1) and "d/a (1).txt" (created 5): the rename target
exists after consolidation. -/
theorem c3_consolidate_group_witness :
    renameTarget ⟨"d/a (1).txt".data, 5, 0⟩ ∈
      delete_duplicates {"d/a.txt".data, "d/a (1).txt".data}
        [("a.txt".data, [⟨"d/a.txt".data, 1, 0⟩, ⟨"d/a (1).txt".data, 5, 0⟩])] :=
  (c3_consolidate_group {"d/a.txt".data, "d/a (1).txt".data} "a.txt".data
    [⟨"d/a.txt".data, 1, 0⟩, ⟨"d/a (1).txt".data, 5, 0⟩]
    ⟨"d/a (1).txt".data, 5, 0⟩ (by decide)).2.1

/-- C4: a key-group pair lies in the grouper's output exactly when at
least two walked records share that key — `normalize_file` of the
record's basename — and the group is the stable sort of all records
bearing the key, in input order; in particular every collision class is
a single entry and singleton classes are discarded. -/
theorem c4_group_characterization (rs : List FileData) (k : List Char)
    (g : List FileData) :
    (k, g) ∈ group_duplicates rs ↔
      2 ≤ (rs.filter (fun r => fileKey r = k)).length ∧
      g = sortGroup (rs.filter (fun r => fileKey r = k)) :=
  mem_group_duplicates

/-- C5: every group in the grouper's output is sorted ascending by the
lexicographic order on (created, modified) — adjacent pairs satisfy it —
and records with identical timestamp pairs keep their relative input
order (the sort is stable, hence deterministic across runs). -/
theorem c5_group_sorted_stable (rs : List FileData) (k : List Char)
    (g : List FileData) (c m : Nat) (h : (k, g) ∈ group_duplicates rs) :
    g.Chain' (fun a b =>
      a.created < b.created ∨ (a.created = b.created ∧ a.modified ≤ b.modified)) ∧
    g.filter (fun r => r.created = c ∧ r.modified = m) =
      (rs.filter (fun r => fileKey r = k)).filter
        (fun r => r.created = c ∧ r.modified = m) := by
  obtain ⟨-, hg⟩ := mem_group_duplicates.mp h
  subst hg
  constructor
  · exact ((sortGroup_pairwise _).chain').imp (fun a b hab => (fileLe_iff a b).mp hab)
  · exact sortGroup_filter_stamp ..

unseal List.merge List.mergeSort in
/-- C5, witness: two records with identical timestamps (7, 7) sharing the
key "b.txt" stay in input order inside their group. -/
theorem c5_group_sorted_stable_witness :
    ([⟨"d/b (1).txt".data, 7, 7⟩, ⟨"d/b.txt".data, 7, 7⟩] : List FileData).Chain'
      (fun a b =>
        a.created < b.created ∨ (a.created = b.created ∧ a.modified ≤ b.modified)) ∧
    ([⟨"d/b (1).txt".data, 7, 7⟩, ⟨"d/b.txt".data, 7, 7⟩] : List FileData).filter
        (fun r => r.created = 7 ∧ r.modified = 7) =
      (([⟨"d/b (1).txt".data, 7, 7⟩, ⟨"d/b.txt".data, 7, 7⟩] : List FileData).filter
          (fun r => fileKey r = "b.txt".data)).filter
        (fun r => r.created = 7 ∧ r.modified = 7) :=
  c5_group_sorted_stable
    [⟨"d/b (1).txt".data, 7, 7⟩, ⟨"d/b.txt".data, 7, 7⟩] "b.txt".data
    [⟨"d/b (1).txt".data, 7, 7⟩, ⟨"d/b.txt".data, 7, 7⟩] 7 7 (by decide)

/-- C6, counterexample: an entry whose metadata is readable but whose
creation timestamp is absent — which the claim calls a fatal read error
for that entry — does not make grouping fail when the entry lands in a
singleton class: the run returns an empty mapping successfully, because
`compare_file_data` (the only reader of the timestamps) never runs on
discarded singleton groups. -/
theorem c6_metadata_counterexample :
    (⟨"a.txt".data, some (none, some 5)⟩ : RawFile).metadata = some (none, some 5) ∧
    group_duplicatesE [⟨"a.txt".data, some (none, some 5)⟩] = .ok [] := by
  decide

/-- C6, amended: a failed metadata read on any traversed entry aborts
the whole grouping with no partial result; a missing created or modified
timestamp, however, is fatal only when the entry belongs to a retained
duplicate group (size at least 2), whose sorting unwraps the timestamps
of every member — on singleton entries it is silently ignored. -/
theorem c6_metadata_failure_fatal :
    (∀ rs : List RawFile, (∃ r ∈ rs, r.metadata = none) →
      group_duplicatesE rs = .error ()) ∧
    (∀ (rs : List RawFile) (raw : List RawData) (kv : List Char × List RawData),
      readMeta rs = .ok raw → kv ∈ retainDups (buildMap rawKey raw) →
      (∃ r ∈ kv.2, r.created = none ∨ r.modified = none) →
      group_duplicatesE rs = .error ()) :=
  ⟨fun _ h => group_duplicatesE_error_of_meta h,
   fun _ _ _ hok hkv hmiss => group_duplicatesE_error_of_created hok hkv hmiss⟩

/-- C6, witness: the amended statement evaluated on a single entry whose
metadata read fails: grouping aborts with an error. -/
theorem c6_metadata_failure_fatal_witness :
    group_duplicatesE [⟨"a.txt".data, none⟩] = .error () :=
  c6_metadata_failure_fatal.1 [⟨"a.txt".data, none⟩]
    ⟨⟨"a.txt".data, none⟩, by decide, rfl⟩

/-- C7: the four concrete normalization vectors of the specification,
including that "(3).txt" does not match the pattern at all because the
base capture must be non-empty. -/
theorem c7_vectors :
    normalize_file "report (2).pdf" = "report.pdf" ∧
    normalize_file "report.pdf" = "report.pdf" ∧
    normalize_file "report (12)" = "report" ∧
    normalize_file "(3).txt" = "(3).txt" ∧
    matchEnum "(3).txt".data = none := by
  decide

/-- C8: an entry is hidden exactly when its name starts with a dot; a
hidden entry is pruned from the walk together with its entire subtree;
and a directory containing only ".hidden (2).txt" is traversed without
producing any group and without error. -/
theorem c8_hidden_pruned :
    (∀ name : List Char, is_hidden name = true ↔ name.head? = some '.') ∧
    (∀ (pre rest : List Char) (c m : Nat) (ch : List FSEntry),
      walkEntry pre (.mk ('.' :: rest) c m ch) = []) ∧
    walkEntry [] (.mk "d".data 0 0 [.mk ".hidden (2).txt".data 1 1 []]) =
      [⟨"d".data, 0, 0⟩] ∧
    group_duplicatesE
      ((walkEntry [] (.mk "d".data 0 0 [.mk ".hidden (2).txt".data 1 1 []])).map toRaw) =
      .ok [] := by
  refine ⟨?_, ?_, by decide, by decide⟩
  · intro name
    cases name with
    | nil => simp [is_hidden]
    | cons c t => simp [is_hidden]
  · intro pre rest c m ch
    simp [walkEntry, is_hidden]

/-- C9: the normalizer is total and pure — with all its internal
fallible operations (capture lookup, optional extension default) modelled
explicitly, it returns `some` result on every input, the no-match case
returning the input unchanged; determinism is immediate since it is a
function of its argument alone. -/
theorem c9_normalize_total (s : List Char) :
    normalize_fileO s = some (normalizeL s) := by
  cases h : matchEnum s with
  | none => simp [normalize_fileO, captures?, normalizeL, h]
  | some be =>
    obtain ⟨b, e⟩ := be
    cases e with
    | nil => simp [normalize_fileO, captures?, normalizeL, h]
    | cons c t => simp [normalize_fileO, captures?, normalizeL, h]

/-- C10: every group the grouper hands to the consolidator has length at
least 2, so the consolidator's `len - 1` never underflows (it is at
least 1), the deleted prefix is nonempty, and the access to the last
element cannot fail. -/
theorem c10_groups_big_enough (rs : List FileData) (k : List Char)
    (g : List FileData) (h : (k, g) ∈ group_duplicates rs) :
    2 ≤ g.length ∧ 1 ≤ g.length - 1 ∧
    (g.take (g.length - 1)).length = g.length - 1 ∧
    g.getLast?.isSome = true := by
  obtain ⟨hlen, hg⟩ := mem_group_duplicates.mp h
  have h2 : 2 ≤ g.length := by
    rw [hg, sortGroup_length]
    exact hlen
  refine ⟨h2, by omega, by rw [List.length_take]; omega, ?_⟩
  rw [List.getLast?_isSome]
  intro hnil
  rw [hnil] at h2
  simp at h2

unseal List.merge List.mergeSort in
/-- C10, witness: the statement evaluated on a two-record duplicate
group for the key "c.txt". -/
theorem c10_groups_big_enough_witness :
    2 ≤ ([⟨"d/c.txt".data, 0, 0⟩, ⟨"d/c (1).txt".data, 1, 0⟩] : List FileData).length ∧
    1 ≤ ([⟨"d/c.txt".data, 0, 0⟩, ⟨"d/c (1).txt".data, 1, 0⟩] : List FileData).length - 1 ∧
    (([⟨"d/c.txt".data, 0, 0⟩, ⟨"d/c (1).txt".data, 1, 0⟩] : List FileData).take
        (([⟨"d/c.txt".data, 0, 0⟩, ⟨"d/c (1).txt".data, 1, 0⟩] : List FileData).length - 1)).length =
      ([⟨"d/c.txt".data, 0, 0⟩, ⟨"d/c (1).txt".data, 1, 0⟩] : List FileData).length - 1 ∧
    ([⟨"d/c.txt".data, 0, 0⟩, ⟨"d/c (1).txt".data, 1, 0⟩] : List FileData).getLast?.isSome = true :=
  c10_groups_big_enough
    [⟨"d/c.txt".data, 0, 0⟩, ⟨"d/c (1).txt".data, 1, 0⟩] "c.txt".data
    [⟨"d/c.txt".data, 0, 0⟩, ⟨"d/c (1).txt".data, 1, 0⟩] (by decide)

end Uniquer
